import Mathlib

/-!
Verification of the commit-contributor aggregation tool (`src/main.py`).

The program fetches a repository summary and paginated commit lists from a
remote API, resolves each commit's author to a cached profile, filters
profiles by case-insensitive location substrings, and tallies matching
commits per login.

Shallow embedding choices:
* HTTP responses are modelled as a stream `Nat → Response β` (the sequence of
  responses the remote would give to repeated attempts of one request);
  `load_with_retry`'s unbounded `while True` loop is given explicit fuel, so
  `none` means "still retrying when the fuel ran out".
* The fetcher's observable behaviour (returned payload, number of
  `logging.error` events, number of cooldown sleeps) is collected in a
  `FetchOutcome`.
* The resolver and worker are modelled against already-parsed oracles for
  pages and profiles (by C7 the fetcher hands every caller exactly the parsed
  body of a status-200 response), and they record an event trace
  (page requests, per-commit resolution steps, profile fetches).
-/

/-- One HTTP response: a status code and a (parsed JSON) body. -/
structure Response (β : Type) where
  status : Nat
  body : β
deriving Repr, DecidableEq

/-- Observable outcome of `load_with_retry`: `result = some b` models
`return await resp.json()`; `result = none` models the fall-through path
(`break` followed by the implicit `return None`); `errors` counts
`logging.error` events and `sleeps` counts cooldown sleeps. -/
structure FetchOutcome (β : Type) where
  result : Option β
  errors : Nat
  sleeps : Nat
deriving Repr, DecidableEq

/-- The body of `load_with_retry`'s `while True:` loop (src/main.py:23-36),
with explicit fuel. Attempt `i` inspects `responses i`. On status 200 the
parsed body is returned. Otherwise `success` is `False`, one error is
logged, and — exactly as in the source — the loop breaks if `success` holds
(the dead path giving the implicit `None`) and else sleeps one cooldown and
re-attempts. `none` means the fuel was exhausted while still retrying. -/
def loadWithRetryGo (responses : Nat → Response β) :
    Nat → Nat → Nat → Nat → Option (FetchOutcome β)
  | _, _, _, 0 => none
  | i, errs, slps, fuel + 1 =>
    let resp := responses i
    if resp.status = 200 then
      some ⟨some resp.body, errs, slps⟩
    else
      let success := false
      let errs' := errs + 1
      if success then
        some ⟨none, errs', slps⟩
      else
        loadWithRetryGo responses (i + 1) errs' (slps + 1) fuel

/-- The function `load_with_retry(session, url)` (src/main.py:23-36): run the retry loop
from the first attempt with zero errors and sleeps recorded. -/
def load_with_retry (responses : Nat → Response β) (fuel : Nat) :
    Option (FetchOutcome β) :=
  loadWithRetryGo responses 0 0 0 fuel

/-- A concrete response stream always answering 200 with body 3, used by
the witness below. -/
def alwaysOk3 : Nat → Response Nat := fun _ => Response.mk 200 3

/-- The author reference nested in a commit record: the `author` dict may
lack a `login` key, and carries the profile-lookup `url`. -/
structure AuthorRef where
  login : Option String
  url : String
deriving Repr, DecidableEq

/-- A commit record; the core only inspects the optional author reference
(`commit['author']` may be `None`). -/
structure Commit where
  author : Option AuthorRef
deriving Repr, DecidableEq

/-- A contributor profile as returned by the profile endpoint; `location`
is nullable. -/
structure Profile where
  login : String
  name : String
  location : Option String
  html_url : String
deriving Repr, DecidableEq

/-- Run configuration: access token, repository list, location substrings. -/
structure Config where
  accessToken : String
  repos : List String
  locations : List String
deriving Repr

/-- Tests whether `needle` starts the character list `haystack`. -/
def charsBeginWith : List Char → List Char → Bool
  | [], _ => true
  | _ :: _, [] => false
  | a :: as, b :: bs => a == b && charsBeginWith as bs

/-- Tests whether `needle` occurs contiguously inside the character list — Python's
`needle in haystack` for strings. -/
def charsContain (needle : List Char) : List Char → Bool
  | [] => needle.isEmpty
  | b :: bs => charsBeginWith needle (b :: bs) || charsContain needle bs

/-- Python's substring test `needle in haystack`. -/
def pyIn (needle haystack : String) : Bool :=
  charsContain needle.data haystack.data

/-- Python's `str.lower()`: lower-case every character. -/
def pyLower (s : String) : String :=
  ⟨s.data.map Char.toLower⟩

/-- The location-filter loop (src/main.py:51-54): for each configured
location substring, accept the profile the moment its (non-null) location
contains the substring case-insensitively; `break` on the first match. -/
def locationPasses : List String → Profile → Bool
  | [], _ => false
  | loc :: rest, profile =>
    if (match profile.location with
        | none => false
        | some pl => pyIn (pyLower loc) (pyLower pl)) then
      true
    else
      locationPasses rest profile

/-- Observable event in a worker run: a commit-page request, one commit
entering the resolver, or a profile fetch over the network. -/
inductive Event where
  | pageReq (page : Nat)
  | resolve (commit : Commit)
  | profileFetch (url : String)
deriving Repr, DecidableEq

/-- The page number of a page-request event. -/
def Event.pageNum : Event → Option Nat
  | .pageReq n => some n
  | _ => none

/-- The commit of a resolution event. -/
def Event.resolvedCommit : Event → Option Commit
  | .resolve c => some c
  | _ => none

/-- Result of one `filter_commiters` call: the logins appended to `retval`
(in commit order), the contributor cache afterwards, the logins fetched over
the network (in fetch order), and the event trace. -/
structure ResolveOut where
  matched : List String
  cache : List (String × Profile)
  fetched : List String
  events : List Event
deriving Repr

/-- The author login the resolver would extract from a commit (`None` when
`commit['author']` is `None` or has no `login` key). -/
def authorLogin (c : Commit) : Option String :=
  match c.author with
  | none => none
  | some a => a.login

/-- Dictionary lookup in the contributor cache (`commiters_cache[login]`,
with `none` for `login not in commiters_cache`). -/
def lookupLogin (cache : List (String × Profile)) (l : String) : Option Profile :=
  match cache with
  | [] => none
  | (k, p) :: rest => if k = l then some p else lookupLogin rest l

/-- The function `filter_commiters(session, commits)` (src/main.py:39-55): walk the
commits in order; skip those without an identifiable author; look the login
up in the contributor cache, fetching and storing the profile on a miss;
append the login to the result when the location filter passes. The network
is the oracle `net`, keyed by the requested URL. -/
def filter_commiters (cfg : Config) (net : String → Profile) :
    List Commit → List (String × Profile) → ResolveOut
  | [], cache => { matched := [], cache := cache, fetched := [], events := [] }
  | commit :: rest, cache =>
    match commit.author with
    | none =>
      let o := filter_commiters cfg net rest cache
      { o with events := Event.resolve commit :: o.events }
    | some a =>
      match a.login with
      | none =>
        let o := filter_commiters cfg net rest cache
        { o with events := Event.resolve commit :: o.events }
      | some login =>
        let url := a.url ++ "?access_token=" ++ cfg.accessToken
        match lookupLogin cache login with
        | none =>
          let profile := net url
          let o := filter_commiters cfg net rest ((login, profile) :: cache)
          if locationPasses cfg.locations profile then
            { matched := login :: o.matched, cache := o.cache,
              fetched := login :: o.fetched,
              events := Event.resolve commit :: Event.profileFetch url :: o.events }
          else
            { matched := o.matched, cache := o.cache,
              fetched := login :: o.fetched,
              events := Event.resolve commit :: Event.profileFetch url :: o.events }
        | some profile =>
          let o := filter_commiters cfg net rest cache
          if locationPasses cfg.locations profile then
            { o with matched := login :: o.matched,
                     events := Event.resolve commit :: o.events }
          else
            { o with events := Event.resolve commit :: o.events }

/-- Concrete configuration used by witnesses: token `tok`, one repository,
location substrings `Berlin` and `Remote`. -/
def cfgW : Config :=
  { accessToken := "tok", repos := ["octo/hello"], locations := ["Berlin", "Remote"] }

/-- Concrete profile located in Berlin. -/
def profBerlin : Profile :=
  { login := "alice", name := "Alice", location := some "Berlin",
    html_url := "hu/alice" }

/-- Concrete profile located in Tokyo. -/
def profTokyo : Profile :=
  { login := "bob", name := "Bob", location := some "Tokyo",
    html_url := "hu/bob" }

/-- Concrete profile network: alice's profile URL resolves to the Berlin
profile, every other URL to the Tokyo profile. -/
def netW : String → Profile := fun url =>
  if url = "u/alice?access_token=tok" then profBerlin else profTokyo

/-- A commit authored by `alice`. -/
def commitAlice : Commit := ⟨some ⟨some "alice", "u/alice"⟩⟩

/-- A commit authored by `bob`. -/
def commitBob : Commit := ⟨some ⟨some "bob", "u/bob"⟩⟩

/-- Parsed repository summary (name and description). -/
structure Summary where
  name : String
  description : String
deriving Repr, DecidableEq

/-- One step of `collections.Counter` increment:
`commiters[commiter] += 1` (a missing key counts as 0). -/
def counterInc : List (String × Nat) → String → List (String × Nat)
  | [], l => [(l, 1)]
  | (k, v) :: rest, l =>
    if k = l then (k, v + 1) :: rest else (k, v) :: counterInc rest l

/-- The dictionary a worker returns (src/main.py:97-102). -/
structure RepoResult where
  repo : String
  name : String
  description : String
  commiters : List (String × Nat)
deriving Repr, DecidableEq

/-- The worker's pagination loop (src/main.py:85-95), with explicit fuel.
`page` starts at 0 and is incremented before each request; the page of
commits is requested (recorded as a page-request event), the loop breaks on
an empty page, and otherwise the page's commits go through the resolver and
each returned login increments the per-login counter. -/
def workerGo (cfg : Config) (net : String → Profile)
    (pages : Nat → List Commit) :
    Nat → List (String × Profile) → List (String × Nat) → Nat →
    Option (List (String × Nat) × List (String × Profile) × List Event)
  | _, _, _, 0 => none
  | page, cache, commiters, fuel + 1 =>
    let page' := page + 1
    let data := pages page'
    if data.length = 0 then
      some (commiters, cache, [Event.pageReq page'])
    else
      let o := filter_commiters cfg net data cache
      let commiters' := o.matched.foldl counterInc commiters
      match workerGo cfg net pages page' o.cache commiters' fuel with
      | none => none
      | some (cs, ca, evs) =>
        some (cs, ca, Event.pageReq page' :: (o.events ++ evs))

/-- The function `worker(repo)` (src/main.py:77-102): run the pagination loop from page 0
with an empty counter, then build the result record from the repo id, the
fetched summary and the final counter. The mocked remote is given by the
already-parsed `summary`, the commit-page oracle `pages` (by page number)
and the profile oracle `net` (by URL); the contributor cache starts at
`cache0` and the final cache and event trace are returned alongside. -/
def worker (cfg : Config) (repo : String) (summary : Summary)
    (pages : Nat → List Commit) (net : String → Profile)
    (cache0 : List (String × Profile)) (fuel : Nat) :
    Option (RepoResult × List (String × Profile) × List Event) :=
  match workerGo cfg net pages 0 cache0 [] fuel with
  | none => none
  | some (commiters, cache, evs) =>
    some ({ repo := repo, name := summary.name,
            description := summary.description, commiters := commiters },
          cache, evs)

/-- The commit-page oracle of the end-to-end scenario: page 1 has commits by
alice and bob, page 2 one commit by alice, page 3 is empty. -/
def pagesW : Nat → List Commit := fun k =>
  if k = 1 then [commitAlice, commitBob]
  else if k = 2 then [commitAlice] else []

/-- A commit source whose very first page is empty. -/
def pagesNone : Nat → List Commit := fun _ => []

/-- A commit source with a single one-commit page. -/
def pagesOne : Nat → List Commit := fun k => if k = 1 then [commitAlice] else []

/-- The temporal shape claim C8 asserts of a worker trace: starting from
page `k`, the trace is a page request, then that page's commits resolved in
array order (with no page request among them), then the trace from page
`k+1` — until the first empty page, whose request ends the trace. -/
inductive PageTrace (pages : Nat → List Commit) : Nat → Nat → List Event → Prop where
  | lastPage (k : Nat) (hk : pages k = []) :
      PageTrace pages k k [Event.pageReq k]
  | step (k stop : Nat) (seg rest : List Event) (hk : pages k ≠ [])
      (hseg : seg.filterMap Event.resolvedCommit = pages k)
      (hnp : ∀ e ∈ seg, e.pageNum = none)
      (htail : PageTrace pages (k + 1) stop rest) :
      PageTrace pages k stop (Event.pageReq k :: (seg ++ rest))

/-- Unfolding lemma: nonzero fuel, success case. -/
theorem loadWithRetryGo_succ_ok (responses : Nat → Response β)
    (i errs slps fuel : Nat) (h : (responses i).status = 200) :
    loadWithRetryGo responses i errs slps (fuel + 1) =
      some ⟨some (responses i).body, errs, slps⟩ := by
  simp [loadWithRetryGo, h]

/-- Unfolding lemma: nonzero fuel, failure case. -/
theorem loadWithRetryGo_succ_fail (responses : Nat → Response β)
    (i errs slps fuel : Nat) (h : (responses i).status ≠ 200) :
    loadWithRetryGo responses i errs slps (fuel + 1) =
      loadWithRetryGo responses (i + 1) (errs + 1) (slps + 1) fuel := by
  simp [loadWithRetryGo, h]

/-- Soundness of the retry loop: any outcome it produces is the parsed body of
some status-200 response at or after the starting attempt, and the recorded
error and sleep counts both equal the number of failed attempts before it. -/
theorem loadWithRetryGo_sound (responses : Nat → Response β) :
    ∀ fuel i errs slps out,
      loadWithRetryGo responses i errs slps fuel = some out →
      ∃ j, i ≤ j ∧ (responses j).status = 200 ∧
        out = ⟨some (responses j).body, errs + (j - i), slps + (j - i)⟩ := by
  intro fuel
  induction fuel with
  | zero => intro i errs slps out h; simp [loadWithRetryGo] at h
  | succ fuel ih =>
    intro i errs slps out h
    by_cases hs : (responses i).status = 200
    · rw [loadWithRetryGo_succ_ok responses i errs slps fuel hs] at h
      exact ⟨i, le_refl i, hs, by simpa using h.symm⟩
    · rw [loadWithRetryGo_succ_fail responses i errs slps fuel hs] at h
      obtain ⟨j, hij, hj, hout⟩ := ih (i + 1) (errs + 1) (slps + 1) out h
      refine ⟨j, Nat.le_of_succ_le hij, hj, ?_⟩
      have hsub : errs + 1 + (j - (i + 1)) = errs + (j - i) := by omega
      have hsub' : slps + 1 + (j - (i + 1)) = slps + (j - i) := by omega
      rw [hout, hsub, hsub']

/-- If every response fails, the retry loop never produces an outcome: it
keeps retrying until the fuel runs out. -/
theorem loadWithRetryGo_allFail (responses : Nat → Response β)
    (h : ∀ i, (responses i).status ≠ 200) :
    ∀ fuel i errs slps, loadWithRetryGo responses i errs slps fuel = none := by
  intro fuel
  induction fuel with
  | zero => intro i errs slps; rfl
  | succ fuel ih =>
    intro i errs slps
    rw [loadWithRetryGo_succ_fail responses i errs slps fuel (h i)]
    exact ih (i + 1) (errs + 1) (slps + 1)

/-- With `K` failing attempts and a success at attempt `K`, the loop reaches
the success after exactly `K` logged errors and `K` sleeps, provided the fuel
covers the `K + 1` attempts. -/
theorem loadWithRetryGo_converges (responses : Nat → Response β) :
    ∀ K i errs slps fuel,
      (∀ d, d < K → (responses (i + d)).status ≠ 200) →
      (responses (i + K)).status = 200 → K < fuel →
      loadWithRetryGo responses i errs slps fuel =
        some ⟨some (responses (i + K)).body, errs + K, slps + K⟩ := by
  intro K
  induction K with
  | zero =>
    intro i errs slps fuel _ hok hfuel
    obtain ⟨fuel', rfl⟩ : ∃ f, fuel = f + 1 := ⟨fuel - 1, by omega⟩
    rw [loadWithRetryGo_succ_ok responses i errs slps fuel' (by simpa using hok)]
    simp
  | succ K ih =>
    intro i errs slps fuel hfail hok hfuel
    obtain ⟨fuel', rfl⟩ : ∃ f, fuel = f + 1 := ⟨fuel - 1, by omega⟩
    have h0 : (responses i).status ≠ 200 := by
      simpa using hfail 0 (Nat.succ_pos K)
    rw [loadWithRetryGo_succ_fail responses i errs slps fuel' h0]
    have hfail' : ∀ d, d < K → (responses (i + 1 + d)).status ≠ 200 := by
      intro d hd
      have := hfail (d + 1) (by omega)
      simpa [Nat.add_assoc, Nat.add_comm 1 d] using this
    have hok' : (responses (i + 1 + K)).status = 200 := by
      have : i + 1 + K = i + (K + 1) := by omega
      rw [this]; exact hok
    rw [ih (i + 1) (errs + 1) (slps + 1) fuel' hfail' hok' (by omega)]
    have h1 : i + 1 + K = i + (K + 1) := by omega
    have h2 : errs + 1 + K = errs + (K + 1) := by omega
    have h3 : slps + 1 + K = slps + (K + 1) := by omega
    rw [h1, h2, h3]

/-- C2: if the target returns non-200 for the first `K` requests and 200 on
request `K + 1` (index `K`), then `load_with_retry` returns the parsed body of
that response with exactly `K` logged errors and `K` cooldown sleeps — for
every fuel large enough to see the success — and with fuel `≤ K` it is still
retrying (no retry cap ever stops it short of the success). -/
theorem load_with_retry_converges_after_K (K : Nat)
    (responses : Nat → Response β)
    (hfail : ∀ i, i < K → (responses i).status ≠ 200)
    (hok : (responses K).status = 200) (fuel : Nat) (hfuel : K < fuel) :
    load_with_retry responses fuel =
      some ⟨some (responses K).body, K, K⟩ ∧
    ∀ f, f ≤ K → load_with_retry responses f = none := by
  constructor
  · have := loadWithRetryGo_converges responses K 0 0 0 fuel
      (by simpa using hfail) (by simpa using hok) hfuel
    simpa [load_with_retry] using this
  · intro f hf
    induction f with
    | zero => rfl
    | succ f ihf =>
      unfold load_with_retry
      rw [loadWithRetryGo_succ_fail responses 0 0 0 f
        (hfail 0 (by omega))]
      -- after the first failure the loop state is attempt 1; generalize
      have : ∀ g i errs slps, i + g ≤ K →
          (∀ d, i + d < K → (responses (i + d)).status ≠ 200) →
          loadWithRetryGo responses i errs slps g = none := by
        intro g
        induction g with
        | zero => intro i errs slps _ _; rfl
        | succ g ihg =>
          intro i errs slps hik hfl
          rw [loadWithRetryGo_succ_fail responses i errs slps g
            (by simpa using hfl 0 (by omega))]
          exact ihg (i + 1) (errs + 1) (slps + 1) (by omega)
            (fun d hd => by
              have := hfl (1 + d) (by omega)
              simpa [Nat.add_assoc] using this)
      exact this f 1 1 1 (by omega)
        (fun d hd => hfail (1 + d) (by simpa using hd))

/-- Witness for C2: with one 404 then a 200 carrying body 7, the fetcher
returns body 7 after exactly one error and one sleep, and fuel 1 is still
retrying. -/
theorem load_with_retry_converges_after_K_witness :
    load_with_retry
        (fun i => if i = 0 then Response.mk 404 (7 : Nat) else Response.mk 200 7) 2 =
      some ⟨some 7, 1, 1⟩ ∧
    load_with_retry
        (fun i => if i = 0 then Response.mk 404 (7 : Nat) else Response.mk 200 7) 1 =
      none := by
  have h := load_with_retry_converges_after_K 1
    (fun i => if i = 0 then Response.mk 404 (7 : Nat) else Response.mk 200 7)
    (by intro i hi; have h0 : i = 0 := (by omega); subst h0; decide)
    (by decide) 2 (by decide)
  exact ⟨h.1, h.2 1 (by decide)⟩

/-- C7: the fetcher never fails observably. Whatever outcome
`load_with_retry` hands its caller is the parsed body of a status-200
response (never an error value from a non-200 response), and if no response
ever has status 200 the loop retries forever (no outcome at any fuel). -/
theorem load_with_retry_never_fails (responses : Nat → Response β)
    (fuel : Nat) :
    (∀ out, load_with_retry responses fuel = some out →
      ∃ j, (responses j).status = 200 ∧ out.result = some (responses j).body) ∧
    ((∀ i, (responses i).status ≠ 200) →
      load_with_retry responses fuel = none) := by
  constructor
  · intro out h
    obtain ⟨j, _, hj, hout⟩ := loadWithRetryGo_sound responses fuel 0 0 0 out h
    exact ⟨j, hj, by rw [hout]⟩
  · intro hfail
    exact loadWithRetryGo_allFail responses hfail fuel 0 0 0

/-- Witness for C7: a target that answers 200 with body 3 at once yields
an outcome holding exactly a 200 body. -/
theorem load_with_retry_never_fails_witness :
    ∃ j : Nat, (alwaysOk3 j).status = 200 ∧
      (FetchOutcome.mk (some 3) 0 0).result = some (alwaysOk3 j).body :=
  (load_with_retry_never_fails alwaysOk3 1).1 ⟨some 3, 0, 0⟩ rfl

/-- C9: whenever the retry loop terminates normally, its `result` field is a
parsed 200 body, never the implicit `None` of the dead `break` fall-through
path: `load_with_retry` never hands its caller an absent result. -/
theorem load_with_retry_no_implicit_none (responses : Nat → Response β)
    (i errs slps fuel : Nat) (out : FetchOutcome β)
    (h : loadWithRetryGo responses i errs slps fuel = some out) :
    out.result ≠ none := by
  obtain ⟨j, _, _, hout⟩ := loadWithRetryGo_sound responses fuel i errs slps out h
  rw [hout]
  simp

/-- Witness for C9: a concrete run of the loop from attempt 2 with success. -/
theorem load_with_retry_no_implicit_none_witness :
    (FetchOutcome.mk (some 5) 4 4).result ≠ none :=
  load_with_retry_no_implicit_none (fun _ => Response.mk 200 (5 : Nat)) 2 4 4 1
    ⟨some 5, 4, 4⟩ rfl

/-- Unfolding lemma: the empty commit list leaves the cache untouched. -/
theorem filter_commiters_nil (cfg : Config) (net : String → Profile)
    (cache : List (String × Profile)) :
    filter_commiters cfg net [] cache =
      { matched := [], cache := cache, fetched := [], events := [] } := rfl

/-- Extracting a login from `authorLogin` recovers the author reference. -/
theorem authorLogin_eq_some (commit : Commit) (login : String)
    (h : authorLogin commit = some login) :
    ∃ a, commit.author = some a ∧ a.login = some login := by
  unfold authorLogin at h
  cases hc : commit.author with
  | none => rw [hc] at h; simp at h
  | some a => rw [hc] at h; exact ⟨a, rfl, by simpa using h⟩

/-- Unfolding lemma: a commit without an identifiable author is skipped —
only its resolution event is recorded. -/
theorem filter_commiters_skip (cfg : Config) (net : String → Profile)
    (commit : Commit) (rest : List Commit) (cache : List (String × Profile))
    (ha : authorLogin commit = none) :
    (filter_commiters cfg net (commit :: rest) cache).matched =
      (filter_commiters cfg net rest cache).matched ∧
    (filter_commiters cfg net (commit :: rest) cache).cache =
      (filter_commiters cfg net rest cache).cache ∧
    (filter_commiters cfg net (commit :: rest) cache).fetched =
      (filter_commiters cfg net rest cache).fetched ∧
    (filter_commiters cfg net (commit :: rest) cache).events =
      Event.resolve commit :: (filter_commiters cfg net rest cache).events := by
  unfold authorLogin at ha
  cases hc : commit.author with
  | none => simp [filter_commiters, hc]
  | some a =>
    rw [hc] at ha
    cases hl : a.login with
    | none => simp [filter_commiters, hc, hl]
    | some l => simp [hl] at ha

/-- Unfolding lemma: cache hit — no fetch, no cache change, the cached
profile feeds the location filter. -/
theorem filter_commiters_hit (cfg : Config) (net : String → Profile)
    (commit : Commit) (a : AuthorRef) (login : String) (rest : List Commit)
    (cache : List (String × Profile)) (profile : Profile)
    (ha : commit.author = some a) (hl : a.login = some login)
    (hlk : lookupLogin cache login = some profile) :
    (filter_commiters cfg net (commit :: rest) cache).matched =
      (if locationPasses cfg.locations profile then
        login :: (filter_commiters cfg net rest cache).matched
       else (filter_commiters cfg net rest cache).matched) ∧
    (filter_commiters cfg net (commit :: rest) cache).cache =
      (filter_commiters cfg net rest cache).cache ∧
    (filter_commiters cfg net (commit :: rest) cache).fetched =
      (filter_commiters cfg net rest cache).fetched ∧
    (filter_commiters cfg net (commit :: rest) cache).events =
      Event.resolve commit :: (filter_commiters cfg net rest cache).events := by
  by_cases hpass : locationPasses cfg.locations profile = true
  · simp only [filter_commiters, ha, hl, hlk, hpass, if_true]
    simp
  · simp only [filter_commiters, ha, hl, hlk]
    simp [hpass]

/-- Unfolding lemma: cache miss — the profile for the commit's author URL is
fetched from the network and stored in the cache keyed by the login before
the filter runs and the rest of the commits are processed. -/
theorem filter_commiters_miss (cfg : Config) (net : String → Profile)
    (commit : Commit) (a : AuthorRef) (login : String) (rest : List Commit)
    (cache : List (String × Profile))
    (ha : commit.author = some a) (hl : a.login = some login)
    (hlk : lookupLogin cache login = none) :
    (filter_commiters cfg net (commit :: rest) cache).matched =
      (if locationPasses cfg.locations
            (net (a.url ++ "?access_token=" ++ cfg.accessToken)) then
        login :: (filter_commiters cfg net rest
          ((login, net (a.url ++ "?access_token=" ++ cfg.accessToken)) ::
            cache)).matched
       else (filter_commiters cfg net rest
          ((login, net (a.url ++ "?access_token=" ++ cfg.accessToken)) ::
            cache)).matched) ∧
    (filter_commiters cfg net (commit :: rest) cache).cache =
      (filter_commiters cfg net rest
        ((login, net (a.url ++ "?access_token=" ++ cfg.accessToken)) ::
          cache)).cache ∧
    (filter_commiters cfg net (commit :: rest) cache).fetched =
      login :: (filter_commiters cfg net rest
        ((login, net (a.url ++ "?access_token=" ++ cfg.accessToken)) ::
          cache)).fetched ∧
    (filter_commiters cfg net (commit :: rest) cache).events =
      Event.resolve commit ::
        Event.profileFetch (a.url ++ "?access_token=" ++ cfg.accessToken) ::
        (filter_commiters cfg net rest
          ((login, net (a.url ++ "?access_token=" ++ cfg.accessToken)) ::
            cache)).events := by
  by_cases hpass : locationPasses cfg.locations
      (net (a.url ++ "?access_token=" ++ cfg.accessToken)) = true
  · simp only [filter_commiters, ha, hl, hlk, hpass, if_true]
    simp
  · simp only [filter_commiters, ha, hl, hlk]
    simp [hpass]

/-- A profile with a null location never passes the filter. -/
theorem locationPasses_none (locations : List String) (profile : Profile)
    (hl : profile.location = none) :
    locationPasses locations profile = false := by
  induction locations with
  | nil => rfl
  | cons loc rest ih => simp [locationPasses, hl, ih]

/-- With a non-null location, the filter passes exactly when some configured
substring occurs, case-insensitively, in the location text. -/
theorem locationPasses_some (locations : List String) (profile : Profile)
    (pl : String) (hl : profile.location = some pl) :
    (locationPasses locations profile = true ↔
      ∃ loc ∈ locations, pyIn (pyLower loc) (pyLower pl) = true) := by
  induction locations with
  | nil => simp [locationPasses]
  | cons loc rest ih =>
    simp only [locationPasses, hl]
    constructor
    · intro hpass
      by_cases hp : pyIn (pyLower loc) (pyLower pl) = true
      · exact ⟨loc, List.mem_cons_self loc rest, hp⟩
      · rw [if_neg hp] at hpass
        obtain ⟨l, hm, hpl⟩ := ih.mp hpass
        exact ⟨l, List.mem_cons_of_mem loc hm, hpl⟩
    · rintro ⟨l, hm, hpl⟩
      rcases List.mem_cons.mp hm with rfl | hm
      · rw [if_pos hpl]
      · by_cases hp : pyIn (pyLower loc) (pyLower pl) = true
        · rw [if_pos hp]
        · rw [if_neg hp]
          exact ih.mpr ⟨l, hm, hpl⟩

/-- Cache lookup after a fresh insertion finds the inserted profile. -/
theorem lookupLogin_cons_self (l : String) (p : Profile)
    (cache : List (String × Profile)) :
    lookupLogin ((l, p) :: cache) l = some p := by
  simp [lookupLogin]

/-- Cache lookup for a different login skips an insertion. -/
theorem lookupLogin_cons_ne (k l : String) (p : Profile)
    (cache : List (String × Profile)) (h : k ≠ l) :
    lookupLogin ((k, p) :: cache) l = lookupLogin cache l := by
  simp [lookupLogin, h]

/-- A login is fetched over the network exactly when it was not in the cache
at the start of the call and appears as an author login of the commits. -/
theorem filter_commiters_fetched_iff (cfg : Config) (net : String → Profile) :
    ∀ (commits : List Commit) (cache : List (String × Profile)) (l : String),
      (l ∈ (filter_commiters cfg net commits cache).fetched ↔
        lookupLogin cache l = none ∧ l ∈ commits.filterMap authorLogin) := by
  intro commits
  induction commits with
  | nil => intro cache l; simp [filter_commiters_nil]
  | cons commit rest ih =>
    intro cache l
    cases hal : authorLogin commit with
    | none =>
      obtain ⟨-, -, hf, -⟩ := filter_commiters_skip cfg net commit rest cache hal
      rw [hf, ih]
      simp [List.filterMap_cons, hal]
    | some login =>
      obtain ⟨a, ha, hl⟩ := authorLogin_eq_some commit login hal
      cases hlk : lookupLogin cache login with
      | some p =>
        obtain ⟨-, -, hf, -⟩ :=
          filter_commiters_hit cfg net commit a login rest cache p ha hl hlk
        rw [hf, ih]
        simp only [List.filterMap_cons, hal, List.mem_cons]
        constructor
        · rintro ⟨hnone, hmem⟩; exact ⟨hnone, Or.inr hmem⟩
        · rintro ⟨hnone, hmem⟩
          rcases hmem with rfl | hmem
          · rw [hlk] at hnone; cases hnone
          · exact ⟨hnone, hmem⟩
      | none =>
        obtain ⟨-, -, hf, -⟩ :=
          filter_commiters_miss cfg net commit a login rest cache ha hl hlk
        rw [hf]
        simp only [List.mem_cons, List.filterMap_cons, hal]
        rw [ih]
        constructor
        · rintro (rfl | ⟨hnone, hmem⟩)
          · exact ⟨hlk, Or.inl rfl⟩
          · have hne : login ≠ l := by
              intro he; rw [he, lookupLogin_cons_self] at hnone; cases hnone
            rw [lookupLogin_cons_ne _ _ _ _ hne] at hnone
            exact ⟨hnone, Or.inr hmem⟩
        · rintro ⟨hnone, hmem⟩
          rcases hmem with rfl | hmem
          · exact Or.inl rfl
          · by_cases he : login = l
            · exact Or.inl he.symm
            · refine Or.inr ⟨?_, hmem⟩
              rw [lookupLogin_cons_ne _ _ _ _ he]
              exact hnone

/-- No login is ever fetched twice in one resolver call. -/
theorem filter_commiters_fetched_nodup (cfg : Config) (net : String → Profile) :
    ∀ (commits : List Commit) (cache : List (String × Profile)),
      (filter_commiters cfg net commits cache).fetched.Nodup := by
  intro commits
  induction commits with
  | nil => intro cache; simp [filter_commiters_nil]
  | cons commit rest ih =>
    intro cache
    cases hal : authorLogin commit with
    | none =>
      obtain ⟨-, -, hf, -⟩ := filter_commiters_skip cfg net commit rest cache hal
      rw [hf]; exact ih cache
    | some login =>
      obtain ⟨a, ha, hl⟩ := authorLogin_eq_some commit login hal
      cases hlk : lookupLogin cache login with
      | some p =>
        obtain ⟨-, -, hf, -⟩ :=
          filter_commiters_hit cfg net commit a login rest cache p ha hl hlk
        rw [hf]; exact ih cache
      | none =>
        obtain ⟨-, -, hf, -⟩ :=
          filter_commiters_miss cfg net commit a login rest cache ha hl hlk
        rw [hf]
        refine List.nodup_cons.mpr ⟨fun hmem => ?_, ih _⟩
        rw [filter_commiters_fetched_iff] at hmem
        rw [lookupLogin_cons_self] at hmem
        exact absurd hmem.1 (by simp)

/-- Profiles already in the cache survive a resolver call unchanged. -/
theorem filter_commiters_cache_preserves (cfg : Config) (net : String → Profile) :
    ∀ (commits : List Commit) (cache : List (String × Profile)) (l : String)
      (p : Profile), lookupLogin cache l = some p →
      lookupLogin (filter_commiters cfg net commits cache).cache l = some p := by
  intro commits
  induction commits with
  | nil => intro cache l p h; simpa [filter_commiters_nil] using h
  | cons commit rest ih =>
    intro cache l p h
    cases hal : authorLogin commit with
    | none =>
      obtain ⟨-, hc, -, -⟩ := filter_commiters_skip cfg net commit rest cache hal
      rw [hc]; exact ih cache l p h
    | some login =>
      obtain ⟨a, ha, hl⟩ := authorLogin_eq_some commit login hal
      cases hlk : lookupLogin cache login with
      | some q =>
        obtain ⟨-, hc, -, -⟩ :=
          filter_commiters_hit cfg net commit a login rest cache q ha hl hlk
        rw [hc]; exact ih cache l p h
      | none =>
        obtain ⟨-, hc, -, -⟩ :=
          filter_commiters_miss cfg net commit a login rest cache ha hl hlk
        rw [hc]
        apply ih
        have hne : login ≠ l := fun he => by rw [he, h] at hlk; cases hlk
        rw [lookupLogin_cons_ne _ _ _ _ hne]
        exact h

/-- After a resolver call, every author login of the processed commits has a
profile in the cache — including logins whose profile failed the filter. -/
theorem filter_commiters_caches_author (cfg : Config) (net : String → Profile) :
    ∀ (commits : List Commit) (cache : List (String × Profile)) (l : String),
      l ∈ commits.filterMap authorLogin →
      (lookupLogin (filter_commiters cfg net commits cache).cache l).isSome := by
  intro commits
  induction commits with
  | nil => intro cache l h; simp at h
  | cons commit rest ih =>
    intro cache l h
    cases hal : authorLogin commit with
    | none =>
      rw [List.filterMap_cons, hal] at h
      obtain ⟨-, hc, -, -⟩ := filter_commiters_skip cfg net commit rest cache hal
      rw [hc]; exact ih cache l h
    | some login =>
      obtain ⟨a, ha, hl⟩ := authorLogin_eq_some commit login hal
      rw [List.filterMap_cons, hal] at h
      rcases List.mem_cons.mp h with rfl | h
      · cases hlk : lookupLogin cache l with
        | some q =>
          obtain ⟨-, hc, -, -⟩ :=
            filter_commiters_hit cfg net commit a l rest cache q ha hl hlk
          rw [hc, filter_commiters_cache_preserves cfg net rest cache l q hlk]
          rfl
        | none =>
          obtain ⟨-, hc, -, -⟩ :=
            filter_commiters_miss cfg net commit a l rest cache ha hl hlk
          rw [hc, filter_commiters_cache_preserves cfg net rest _ l _
            (lookupLogin_cons_self _ _ _)]
          rfl
      · cases hlk : lookupLogin cache login with
        | some q =>
          obtain ⟨-, hc, -, -⟩ :=
            filter_commiters_hit cfg net commit a login rest cache q ha hl hlk
          rw [hc]; exact ih cache l h
        | none =>
          obtain ⟨-, hc, -, -⟩ :=
            filter_commiters_miss cfg net commit a login rest cache ha hl hlk
          rw [hc]; exact ih _ l h

/-- Every login the resolver returns has, in the cache it leaves behind, a
profile that passes the location filter. -/
theorem filter_commiters_matched_sound (cfg : Config) (net : String → Profile) :
    ∀ (commits : List Commit) (cache : List (String × Profile)) (l : String),
      l ∈ (filter_commiters cfg net commits cache).matched →
      ∃ p, lookupLogin (filter_commiters cfg net commits cache).cache l = some p ∧
        locationPasses cfg.locations p = true := by
  intro commits
  induction commits with
  | nil => intro cache l h; simp [filter_commiters_nil] at h
  | cons commit rest ih =>
    intro cache l h
    cases hal : authorLogin commit with
    | none =>
      obtain ⟨hm, hc, -, -⟩ := filter_commiters_skip cfg net commit rest cache hal
      rw [hm] at h; rw [hc]; exact ih cache l h
    | some login =>
      obtain ⟨a, ha, hl⟩ := authorLogin_eq_some commit login hal
      cases hlk : lookupLogin cache login with
      | some q =>
        obtain ⟨hm, hc, -, -⟩ :=
          filter_commiters_hit cfg net commit a login rest cache q ha hl hlk
        rw [hm] at h; rw [hc]
        by_cases hpass : locationPasses cfg.locations q = true
        · rw [if_pos hpass] at h
          rcases List.mem_cons.mp h with rfl | h
          · exact ⟨q, filter_commiters_cache_preserves cfg net rest cache l q hlk,
              hpass⟩
          · exact ih cache l h
        · rw [if_neg hpass] at h
          exact ih cache l h
      | none =>
        obtain ⟨hm, hc, -, -⟩ :=
          filter_commiters_miss cfg net commit a login rest cache ha hl hlk
        rw [hm] at h; rw [hc]
        by_cases hpass : locationPasses cfg.locations
            (net (a.url ++ "?access_token=" ++ cfg.accessToken)) = true
        · rw [if_pos hpass] at h
          rcases List.mem_cons.mp h with rfl | h
          · exact ⟨net (a.url ++ "?access_token=" ++ cfg.accessToken),
              filter_commiters_cache_preserves cfg net rest _ l _
                (lookupLogin_cons_self _ _ _), hpass⟩
          · exact ih _ l h
        · rw [if_neg hpass] at h
          exact ih _ l h

/-- The resolver walks exactly the given commits, in array order: the
resolution events of one call list the commits themselves. -/
theorem filter_commiters_events_resolves (cfg : Config) (net : String → Profile) :
    ∀ (commits : List Commit) (cache : List (String × Profile)),
      (filter_commiters cfg net commits cache).events.filterMap
        Event.resolvedCommit = commits := by
  intro commits
  induction commits with
  | nil => intro cache; simp [filter_commiters_nil]
  | cons commit rest ih =>
    intro cache
    cases hal : authorLogin commit with
    | none =>
      obtain ⟨-, -, -, he⟩ := filter_commiters_skip cfg net commit rest cache hal
      rw [he]
      simp [List.filterMap_cons, Event.resolvedCommit, ih]
    | some login =>
      obtain ⟨a, ha, hl⟩ := authorLogin_eq_some commit login hal
      cases hlk : lookupLogin cache login with
      | some p =>
        obtain ⟨-, -, -, he⟩ :=
          filter_commiters_hit cfg net commit a login rest cache p ha hl hlk
        rw [he]
        simp [List.filterMap_cons, Event.resolvedCommit, ih]
      | none =>
        obtain ⟨-, -, -, he⟩ :=
          filter_commiters_miss cfg net commit a login rest cache ha hl hlk
        rw [he]
        simp [List.filterMap_cons, Event.resolvedCommit, ih]

/-- The resolver issues no page requests: none of its events is one. -/
theorem filter_commiters_events_no_page (cfg : Config) (net : String → Profile) :
    ∀ (commits : List Commit) (cache : List (String × Profile)) (e : Event),
      e ∈ (filter_commiters cfg net commits cache).events →
      e.pageNum = none := by
  intro commits
  induction commits with
  | nil => intro cache e he; simp [filter_commiters_nil] at he
  | cons commit rest ih =>
    intro cache e hmem
    cases hal : authorLogin commit with
    | none =>
      obtain ⟨-, -, -, he⟩ := filter_commiters_skip cfg net commit rest cache hal
      rw [he] at hmem
      rcases List.mem_cons.mp hmem with rfl | hmem
      · rfl
      · exact ih cache e hmem
    | some login =>
      obtain ⟨a, ha, hl⟩ := authorLogin_eq_some commit login hal
      cases hlk : lookupLogin cache login with
      | some p =>
        obtain ⟨-, -, -, he⟩ :=
          filter_commiters_hit cfg net commit a login rest cache p ha hl hlk
        rw [he] at hmem
        rcases List.mem_cons.mp hmem with rfl | hmem
        · rfl
        · exact ih cache e hmem
      | none =>
        obtain ⟨-, -, -, he⟩ :=
          filter_commiters_miss cfg net commit a login rest cache ha hl hlk
        rw [he] at hmem
        rcases List.mem_cons.mp hmem with rfl | hmem
        · rfl
        · rcases List.mem_cons.mp hmem with rfl | hmem
          · rfl
          · exact ih _ e hmem

/-- C3: the location filter accepts a profile exactly when its location is
non-null and contains, case-insensitively, at least one configured
substring; with configured locations `Berlin`, `Remote`: location
`Berlin, Germany` matches, `BERLIN` matches, a null location does not,
`Paris` does not. -/
theorem location_filter_semantics :
    (∀ (locations : List String) (profile : Profile),
      (locationPasses locations profile = true ↔
        ∃ pl, profile.location = some pl ∧
          ∃ loc ∈ locations, pyIn (pyLower loc) (pyLower pl) = true)) ∧
    locationPasses ["Berlin", "Remote"]
      { login := "a", name := "A", location := some "Berlin, Germany",
        html_url := "u" } = true ∧
    locationPasses ["Berlin", "Remote"]
      { login := "a", name := "A", location := some "BERLIN",
        html_url := "u" } = true ∧
    locationPasses ["Berlin", "Remote"]
      { login := "a", name := "A", location := none, html_url := "u" } = false ∧
    locationPasses ["Berlin", "Remote"]
      { login := "a", name := "A", location := some "Paris",
        html_url := "u" } = false := by
  refine ⟨?_, by decide, by decide, by decide, by decide⟩
  intro locations profile
  cases hl : profile.location with
  | none =>
    rw [locationPasses_none locations profile hl]
    simp [hl]
  | some pl =>
    rw [locationPasses_some locations profile pl hl]
    constructor
    · rintro ⟨loc, hm, hp⟩; exact ⟨pl, rfl, loc, hm, hp⟩
    · rintro ⟨pl', hpl', loc, hm, hp⟩
      have hpp : pl = pl' := Option.some.inj hpl'
      subst hpp
      exact ⟨loc, hm, hp⟩

/-- Witness for C3: the filter accepts `Berlin, Germany` because the
configured substring `Berlin` occurs in it. -/
theorem location_filter_semantics_witness :
    locationPasses ["Berlin", "Remote"]
      { login := "a", name := "A", location := some "Berlin, Germany",
        html_url := "u" } = true :=
  (location_filter_semantics.1 ["Berlin", "Remote"]
      { login := "a", name := "A", location := some "Berlin, Germany",
        html_url := "u" }).mpr
    ⟨"Berlin, Germany", rfl, "Berlin", by simp, by decide⟩

/-- C5: a commit whose author reference is absent, or lacks a login, is
silently excluded: the resolver returns no contributor for it, changes
neither the cache nor the fetch log, raises nothing, and records only the
commit's resolution event. -/
theorem commit_without_author_excluded (cfg : Config) (net : String → Profile)
    (commit : Commit) (rest : List Commit) (cache : List (String × Profile))
    (h : commit.author = none ∨ ∃ a, commit.author = some a ∧ a.login = none) :
    (filter_commiters cfg net (commit :: rest) cache).matched =
      (filter_commiters cfg net rest cache).matched ∧
    (filter_commiters cfg net (commit :: rest) cache).cache =
      (filter_commiters cfg net rest cache).cache ∧
    (filter_commiters cfg net (commit :: rest) cache).fetched =
      (filter_commiters cfg net rest cache).fetched ∧
    (filter_commiters cfg net (commit :: rest) cache).events =
      Event.resolve commit :: (filter_commiters cfg net rest cache).events := by
  apply filter_commiters_skip
  rcases h with h | ⟨a, ha, hl⟩
  · simp [authorLogin, h]
  · simp [authorLogin, ha, hl]

/-- Witness for C5: a concrete authorless commit is skipped. -/
theorem commit_without_author_excluded_witness :
    (filter_commiters cfgW netW [Commit.mk none] []).matched =
      (filter_commiters cfgW netW [] []).matched ∧
    (filter_commiters cfgW netW [Commit.mk none] []).cache =
      (filter_commiters cfgW netW [] []).cache ∧
    (filter_commiters cfgW netW [Commit.mk none] []).fetched =
      (filter_commiters cfgW netW [] []).fetched ∧
    (filter_commiters cfgW netW [Commit.mk none] []).events =
      Event.resolve (Commit.mk none) :: (filter_commiters cfgW netW [] []).events :=
  commit_without_author_excluded cfgW netW (Commit.mk none) [] [] (Or.inl rfl)

/-- C4: in one sequential resolver run, the network is hit exactly once per
distinct author login not already cached: the fetch log has no duplicates
and contains precisely the uncached author logins; every author login ends
up cached (even when its profile fails the filter), and cached profiles are
never overwritten. -/
theorem resolver_single_fetch_per_login (cfg : Config) (net : String → Profile)
    (commits : List Commit) (cache : List (String × Profile)) :
    (filter_commiters cfg net commits cache).fetched.Nodup ∧
    (∀ l, l ∈ (filter_commiters cfg net commits cache).fetched ↔
      lookupLogin cache l = none ∧ l ∈ commits.filterMap authorLogin) ∧
    (∀ l, l ∈ commits.filterMap authorLogin →
      (lookupLogin (filter_commiters cfg net commits cache).cache l).isSome) ∧
    (∀ l p, lookupLogin cache l = some p →
      lookupLogin (filter_commiters cfg net commits cache).cache l = some p) :=
  ⟨filter_commiters_fetched_nodup cfg net commits cache,
   fun l => filter_commiters_fetched_iff cfg net commits cache l,
   fun l h => filter_commiters_caches_author cfg net commits cache l h,
   fun l p h => filter_commiters_cache_preserves cfg net commits cache l p h⟩

/-- Witness for C4: a pre-cached profile for `bob` survives resolving a
commit by `alice`. -/
theorem resolver_single_fetch_per_login_witness :
    lookupLogin
        (filter_commiters cfgW netW [commitAlice] [("bob", profTokyo)]).cache
        "bob" = some profTokyo :=
  (resolver_single_fetch_per_login cfgW netW [commitAlice]
      [("bob", profTokyo)]).2.2.2 "bob" profTokyo (by decide)

/-- C6: end-to-end scenario — repository `octo/hello`, mocked summary
`demo`/`d`, pages (alice+bob, alice, empty), profile oracle sending alice to
Berlin and bob to Tokyo. The worker's Result is exactly
`{repo, name := demo, description := d, commiters := {alice ↦ 2}}`:
bob is excluded by the location filter and each of alice's matching commits
increments her count. -/
theorem worker_end_to_end :
    (worker cfgW "octo/hello" { name := "demo", description := "d" }
        pagesW netW [] 3).map Prod.fst =
      some { repo := "octo/hello", name := "demo", description := "d",
             commiters := [("alice", 2)] } := by
  decide

/-- Unfolding lemma: empty page — the loop breaks right after requesting it. -/
theorem workerGo_empty (cfg : Config) (net : String → Profile)
    (pages : Nat → List Commit) (page : Nat) (cache : List (String × Profile))
    (cs : List (String × Nat)) (fuel : Nat) (h : pages (page + 1) = []) :
    workerGo cfg net pages page cache cs (fuel + 1) =
      some (cs, cache, [Event.pageReq (page + 1)]) := by
  simp [workerGo, h]

/-- Unfolding lemma: non-empty page — resolve it, tally the matches, and
continue with the next page number. -/
theorem workerGo_step (cfg : Config) (net : String → Profile)
    (pages : Nat → List Commit) (page : Nat) (cache : List (String × Profile))
    (cs : List (String × Nat)) (fuel : Nat) (h : pages (page + 1) ≠ []) :
    workerGo cfg net pages page cache cs (fuel + 1) =
      (match workerGo cfg net pages (page + 1)
          (filter_commiters cfg net (pages (page + 1)) cache).cache
          ((filter_commiters cfg net (pages (page + 1)) cache).matched.foldl
            counterInc cs) fuel with
      | none => none
      | some (cs', ca', evs) =>
        some (cs', ca', Event.pageReq (page + 1) ::
          ((filter_commiters cfg net (pages (page + 1)) cache).events ++ evs))) := by
  have hlen : (pages (page + 1)).length ≠ 0 := by
    simp [List.length_eq_zero, h]
  simp [workerGo, hlen]

/-- Running the pagination loop over `N` non-empty pages followed by an
empty one: it terminates, requests exactly the pages `page+1 … page+N+1` in
order, and feeds exactly the commits of the `N` non-empty pages, in order,
through the resolver. -/
theorem workerGo_run (cfg : Config) (net : String → Profile)
    (pages : Nat → List Commit) :
    ∀ (N page : Nat) (cache : List (String × Profile))
      (cs : List (String × Nat)) (fuel : Nat),
      (∀ k, page < k → k ≤ page + N → pages k ≠ []) →
      pages (page + N + 1) = [] →
      N < fuel →
      ∃ cs' ca' evs,
        workerGo cfg net pages page cache cs fuel = some (cs', ca', evs) ∧
        evs.filterMap Event.pageNum = List.range' (page + 1) (N + 1) ∧
        evs.filterMap Event.resolvedCommit =
          ((List.range' (page + 1) N).map pages).flatten := by
  intro N
  induction N with
  | zero =>
    intro page cache cs fuel _ hemp hfuel
    obtain ⟨fuel', rfl⟩ : ∃ f, fuel = f + 1 := ⟨fuel - 1, by omega⟩
    rw [workerGo_empty cfg net pages page cache cs fuel' (by simpa using hemp)]
    refine ⟨cs, cache, [Event.pageReq (page + 1)], rfl, ?_, ?_⟩
    · simp [Event.pageNum, List.range'_succ]
    · simp [Event.resolvedCommit]
  | succ N ih =>
    intro page cache cs fuel hne hemp hfuel
    obtain ⟨fuel', rfl⟩ : ∃ f, fuel = f + 1 := ⟨fuel - 1, by omega⟩
    have hpne : pages (page + 1) ≠ [] := hne (page + 1) (by omega) (by omega)
    rw [workerGo_step cfg net pages page cache cs fuel' hpne]
    have hne' : ∀ k, page + 1 < k → k ≤ page + 1 + N → pages k ≠ [] :=
      fun k h1 h2 => hne k (by omega) (by omega)
    have hemp' : pages (page + 1 + N + 1) = [] := by
      have heq : page + 1 + N + 1 = page + (N + 1) + 1 := by omega
      rw [heq]; exact hemp
    obtain ⟨cs', ca', evs, hw, hpn, hrc⟩ :=
      ih (page + 1) (filter_commiters cfg net (pages (page + 1)) cache).cache
        ((filter_commiters cfg net (pages (page + 1)) cache).matched.foldl
          counterInc cs) fuel' hne' hemp' (by omega)
    rw [hw]
    refine ⟨cs', ca', _, rfl, ?_, ?_⟩
    · rw [List.filterMap_cons]
      simp only [Event.pageNum]
      rw [List.filterMap_append,
        List.filterMap_eq_nil_iff.mpr
          (filter_commiters_events_no_page cfg net (pages (page + 1)) cache),
        List.nil_append, hpn]
      rw [List.range'_succ (page + 1) (N + 1) 1]
    · rw [List.filterMap_cons]
      simp only [Event.resolvedCommit]
      rw [List.filterMap_append,
        filter_commiters_events_resolves cfg net (pages (page + 1)) cache, hrc]
      rw [List.range'_succ (page + 1) N 1, List.map_cons, List.flatten_cons]

/-- C1: for a commit source with `N` consecutive non-empty pages followed by
an empty page, the worker requests pages `1, 2, …, N+1` in that order —
exactly `N+1` commit-page requests, stopping at the first empty page — and
the commits it feeds to the resolver are exactly those of the `N` non-empty
pages, in page order. -/
theorem worker_pagination_termination (cfg : Config) (net : String → Profile)
    (pages : Nat → List Commit) (cache0 : List (String × Profile)) (N : Nat)
    (hne : ∀ k, 1 ≤ k → k ≤ N → pages k ≠ [])
    (hemp : pages (N + 1) = []) (fuel : Nat) (hfuel : N < fuel) :
    ∃ cs ca evs,
      workerGo cfg net pages 0 cache0 [] fuel = some (cs, ca, evs) ∧
      evs.filterMap Event.pageNum = List.range' 1 (N + 1) ∧
      (evs.filterMap Event.pageNum).length = N + 1 ∧
      evs.filterMap Event.resolvedCommit =
        ((List.range' 1 N).map pages).flatten := by
  obtain ⟨cs, ca, evs, hw, hpn, hrc⟩ := workerGo_run cfg net pages N 0 cache0 []
    fuel (fun k h1 h2 => hne k (by omega) (by omega)) (by simpa using hemp) hfuel
  exact ⟨cs, ca, evs, hw, by simpa using hpn, by rw [hpn]; simp,
    by simpa using hrc⟩

/-- Witness for C1: the end-to-end commit source has 2 non-empty pages and
an empty third page; the worker issues requests for pages 1, 2, 3. -/
theorem worker_pagination_termination_witness :
    ∃ cs ca evs,
      workerGo cfgW netW pagesW 0 [] [] 3 = some (cs, ca, evs) ∧
      evs.filterMap Event.pageNum = List.range' 1 3 ∧
      (evs.filterMap Event.pageNum).length = 3 ∧
      evs.filterMap Event.resolvedCommit =
        ((List.range' 1 2).map pagesW).flatten :=
  worker_pagination_termination cfgW netW pagesW [] 2
    (by
      intro k h1 h2
      have hk : k = 1 ∨ k = 2 := (by omega)
      rcases hk with rfl | rfl <;> decide)
    (by decide) 3 (by decide)

/-- Any successful run of the pagination loop leaves a trace of the
`PageTrace` shape. -/
theorem workerGo_page_trace (cfg : Config) (net : String → Profile)
    (pages : Nat → List Commit) :
    ∀ (fuel page : Nat) (cache : List (String × Profile))
      (cs cs' : List (String × Nat)) (ca' : List (String × Profile))
      (evs : List Event),
      workerGo cfg net pages page cache cs fuel = some (cs', ca', evs) →
      ∃ stop, page < stop ∧ PageTrace pages (page + 1) stop evs := by
  intro fuel
  induction fuel with
  | zero => intro page cache cs cs' ca' evs h; cases h
  | succ fuel ih =>
    intro page cache cs cs' ca' evs h
    by_cases hlen : pages (page + 1) = []
    · rw [workerGo_empty cfg net pages page cache cs fuel hlen] at h
      simp only [Option.some.injEq, Prod.mk.injEq] at h
      obtain ⟨-, -, hevs⟩ := h
      subst hevs
      exact ⟨page + 1, by omega, PageTrace.lastPage (page + 1) hlen⟩
    · rw [workerGo_step cfg net pages page cache cs fuel hlen] at h
      cases hw : workerGo cfg net pages (page + 1)
          (filter_commiters cfg net (pages (page + 1)) cache).cache
          ((filter_commiters cfg net (pages (page + 1)) cache).matched.foldl
            counterInc cs) fuel with
      | none => rw [hw] at h; cases h
      | some out =>
        obtain ⟨cs2, ca2, evs2⟩ := out
        rw [hw] at h
        simp only [Option.some.injEq, Prod.mk.injEq] at h
        obtain ⟨-, -, hevs⟩ := h
        subst hevs
        obtain ⟨stop, hlt, htr⟩ := ih (page + 1) _ _ cs2 ca2 evs2 hw
        exact ⟨stop, by omega,
          PageTrace.step (page + 1) stop _ evs2 hlen
            (filter_commiters_events_resolves cfg net (pages (page + 1)) cache)
            (filter_commiters_events_no_page cfg net (pages (page + 1)) cache)
            htr⟩

/-- A `PageTrace` from `k` to `stop` requests exactly the pages
`k, k+1, …, stop`, in that order. -/
theorem PageTrace_pageNums (pages : Nat → List Commit) :
    ∀ (k stop : Nat) (evs : List Event), PageTrace pages k stop evs →
      k ≤ stop ∧ evs.filterMap Event.pageNum = List.range' k (stop - k + 1) := by
  intro k stop evs h
  induction h with
  | lastPage k hk =>
    refine ⟨le_refl k, ?_⟩
    simp [Event.pageNum, Nat.sub_self]
  | step k stop seg rest hk hseg hnp htail ih =>
    obtain ⟨hle, hpn⟩ := ih
    refine ⟨by omega, ?_⟩
    rw [List.filterMap_cons]
    simp only [Event.pageNum]
    rw [List.filterMap_append, List.filterMap_eq_nil_iff.mpr hnp,
      List.nil_append, hpn]
    have h1 : stop - k + 1 = (stop - (k + 1) + 1) + 1 := by omega
    rw [h1, List.range'_succ k (stop - (k + 1) + 1) 1]

/-- C8: within one worker run, commit pages are requested strictly in
increasing page order starting at 1 — page `k+1` only after page `k`'s
commits are all resolved — and the commits of each page pass through the
resolver sequentially, in exactly the order they appear in the page. -/
theorem worker_sequential_ordering (cfg : Config) (repo : String)
    (summary : Summary) (pages : Nat → List Commit) (net : String → Profile)
    (cache0 : List (String × Profile)) (fuel : Nat) (res : RepoResult)
    (ca : List (String × Profile)) (evs : List Event)
    (h : worker cfg repo summary pages net cache0 fuel = some (res, ca, evs)) :
    ∃ stop, 1 ≤ stop ∧ PageTrace pages 1 stop evs ∧
      evs.filterMap Event.pageNum = List.range' 1 stop := by
  unfold worker at h
  cases hw : workerGo cfg net pages 0 cache0 [] fuel with
  | none => rw [hw] at h; cases h
  | some out =>
    obtain ⟨cs', ca'', evs'⟩ := out
    rw [hw] at h
    simp only [Option.some.injEq, Prod.mk.injEq] at h
    obtain ⟨-, -, hevs⟩ := h
    subst hevs
    obtain ⟨stop, hlt, htr⟩ :=
      workerGo_page_trace cfg net pages fuel 0 cache0 [] cs' ca'' evs' hw
    obtain ⟨hle, hpn⟩ := PageTrace_pageNums pages 1 stop evs' htr
    refine ⟨stop, hle, htr, ?_⟩
    rw [hpn]
    have h1 : stop - 1 + 1 = stop := by omega
    rw [h1]

/-- Witness for C8: the one-page-empty source gives the one-request trace. -/
theorem worker_sequential_ordering_witness :
    ∃ stop, 1 ≤ stop ∧ PageTrace pagesNone 1 stop [Event.pageReq 1] ∧
      ([Event.pageReq 1] : List Event).filterMap Event.pageNum =
        List.range' 1 stop :=
  worker_sequential_ordering cfgW "r" { name := "n", description := "d" }
    pagesNone netW [] 1
    { repo := "r", name := "n", description := "d", commiters := [] } []
    [Event.pageReq 1] (by decide)

/-- An entry of `counterInc cs m` is an untouched entry of `cs`, an entry of
`cs` under key `m` incremented by one, or the fresh entry `(m, 1)`. -/
theorem counterInc_mem (cs : List (String × Nat)) (m l : String) (n : Nat)
    (h : (l, n) ∈ counterInc cs m) :
    (l, n) ∈ cs ∨ (∃ v, (l, v) ∈ cs ∧ n = v + 1 ∧ l = m) ∨ (l = m ∧ n = 1) := by
  induction cs with
  | nil =>
    simp only [counterInc, List.mem_singleton, Prod.mk.injEq] at h
    exact Or.inr (Or.inr ⟨h.1, h.2⟩)
  | cons kv rest ih =>
    obtain ⟨k, v⟩ := kv
    by_cases hk : k = m
    · subst hk
      rw [counterInc, if_pos rfl] at h
      rcases List.mem_cons.mp h with heq | hmem
      · simp only [Prod.mk.injEq] at heq
        obtain ⟨rfl, rfl⟩ := heq
        exact Or.inr (Or.inl ⟨v, List.mem_cons_self _ _, rfl, rfl⟩)
      · exact Or.inl (List.mem_cons_of_mem _ hmem)
    · rw [counterInc, if_neg hk] at h
      rcases List.mem_cons.mp h with heq | hmem
      · exact Or.inl (heq ▸ List.mem_cons_self _ _)
      · rcases ih hmem with h1 | h2 | h3
        · exact Or.inl (List.mem_cons_of_mem _ h1)
        · obtain ⟨v', hv, hn, hl⟩ := h2
          exact Or.inr (Or.inl ⟨v', List.mem_cons_of_mem _ hv, hn, hl⟩)
        · exact Or.inr (Or.inr h3)

/-- Folding counter increments over a list of logins keeps every count at
least 1 and every key satisfying a property that holds of the initial keys
and the incremented logins. -/
theorem foldl_counterInc_entry (P : String → Prop) :
    ∀ (ms : List String) (cs : List (String × Nat)),
      (∀ l n, (l, n) ∈ cs → 1 ≤ n ∧ P l) →
      (∀ l, l ∈ ms → P l) →
      ∀ l n, (l, n) ∈ ms.foldl counterInc cs → 1 ≤ n ∧ P l := by
  intro ms
  induction ms with
  | nil => intro cs hcs _ l n h; exact hcs l n h
  | cons m ms ih =>
    intro cs hcs hms l n h
    rw [List.foldl_cons] at h
    refine ih (counterInc cs m) ?_ (fun l hl => hms l (List.mem_cons_of_mem _ hl))
      l n h
    intro l' n' h'
    rcases counterInc_mem cs m l' n' h' with h1 | h2 | h3
    · exact hcs l' n' h1
    · obtain ⟨v, hv, hn, hl⟩ := h2
      have h1v := (hcs l' v hv).1
      exact ⟨by omega, (hcs l' v hv).2⟩
    · obtain ⟨rfl, rfl⟩ := h3
      exact ⟨le_refl 1, hms _ (List.mem_cons_self _ _)⟩

/-- Invariant of the pagination loop: every counter entry has count at least
1 and a cached profile (in the loop's current cache) passing the location
filter; this is preserved to the final counter and final cache. -/
theorem workerGo_counter_inv (cfg : Config) (net : String → Profile)
    (pages : Nat → List Commit) :
    ∀ (fuel page : Nat) (cache : List (String × Profile))
      (cs cs' : List (String × Nat)) (ca' : List (String × Profile))
      (evs : List Event),
      (∀ l n, (l, n) ∈ cs → 1 ≤ n ∧ ∃ p, lookupLogin cache l = some p ∧
        locationPasses cfg.locations p = true) →
      workerGo cfg net pages page cache cs fuel = some (cs', ca', evs) →
      ∀ l n, (l, n) ∈ cs' → 1 ≤ n ∧ ∃ p, lookupLogin ca' l = some p ∧
        locationPasses cfg.locations p = true := by
  intro fuel
  induction fuel with
  | zero => intro page cache cs cs' ca' evs _ h; cases h
  | succ fuel ih =>
    intro page cache cs cs' ca' evs hinv h
    by_cases hlen : pages (page + 1) = []
    · rw [workerGo_empty cfg net pages page cache cs fuel hlen] at h
      simp only [Option.some.injEq, Prod.mk.injEq] at h
      obtain ⟨rfl, rfl, -⟩ := h
      exact hinv
    · rw [workerGo_step cfg net pages page cache cs fuel hlen] at h
      cases hw : workerGo cfg net pages (page + 1)
          (filter_commiters cfg net (pages (page + 1)) cache).cache
          ((filter_commiters cfg net (pages (page + 1)) cache).matched.foldl
            counterInc cs) fuel with
      | none => rw [hw] at h; cases h
      | some out =>
        obtain ⟨cs2, ca2, evs2⟩ := out
        rw [hw] at h
        simp only [Option.some.injEq, Prod.mk.injEq] at h
        obtain ⟨rfl, rfl, -⟩ := h
        refine ih (page + 1) _ _ cs2 ca2 evs2 ?_ hw
        refine foldl_counterInc_entry _ _ cs ?_ ?_
        · intro l n hmem
          obtain ⟨h1, p, hp, hpass⟩ := hinv l n hmem
          exact ⟨h1, p,
            filter_commiters_cache_preserves cfg net (pages (page + 1)) cache
              l p hp, hpass⟩
        · intro l hl
          exact filter_commiters_matched_sound cfg net (pages (page + 1))
            cache l hl

/-- C10: in every Result a worker produces, each counted login has count at
least 1 and its cached profile passed the location filter — no zero-count
and no non-matching entries appear. -/
theorem worker_result_counts_positive (cfg : Config) (repo : String)
    (summary : Summary) (pages : Nat → List Commit) (net : String → Profile)
    (cache0 : List (String × Profile)) (fuel : Nat) (res : RepoResult)
    (ca : List (String × Profile)) (evs : List Event)
    (h : worker cfg repo summary pages net cache0 fuel = some (res, ca, evs)) :
    ∀ l n, (l, n) ∈ res.commiters →
      1 ≤ n ∧ ∃ p, lookupLogin ca l = some p ∧
        locationPasses cfg.locations p = true := by
  unfold worker at h
  cases hw : workerGo cfg net pages 0 cache0 [] fuel with
  | none => rw [hw] at h; cases h
  | some out =>
    obtain ⟨cs', ca'', evs'⟩ := out
    rw [hw] at h
    simp only [Option.some.injEq, Prod.mk.injEq] at h
    obtain ⟨hres, rfl, -⟩ := h
    intro l n hmem
    refine workerGo_counter_inv cfg net pages fuel 0 cache0 [] cs' ca'' evs'
      (by intro l n hmem0; simp at hmem0) hw l n ?_
    rw [← hres] at hmem
    exact hmem

/-- Witness for C10: the single-page alice run yields count 1 with alice's
Berlin profile cached and matching. -/
theorem worker_result_counts_positive_witness :
    1 ≤ 1 ∧ ∃ p, lookupLogin [("alice", profBerlin)] "alice" = some p ∧
      locationPasses cfgW.locations p = true :=
  worker_result_counts_positive cfgW "r" { name := "n", description := "d" }
    pagesOne netW [] 2
    { repo := "r", name := "n", description := "d",
      commiters := [("alice", 1)] }
    [("alice", profBerlin)]
    [Event.pageReq 1, Event.resolve commitAlice,
     Event.profileFetch "u/alice?access_token=tok", Event.pageReq 2]
    (by decide) "alice" 1 (by decide)
